import Mathlib

/-!
# Ripple: a verification development for `main.c`

The program animates expanding rings on an SDL window surface.  This file
embeds the three thread bodies of `main.c` (`drawRipple`, `drawCircle`,
`updateWindowSurface`) as functions on an explicit `World` and proves
properties of them.

Conventions of the embedding.

* C `int` is `Int`.  Ripple origins are window coordinates and radii stay
  below 200, so no `int` arithmetic of the program comes near `2^31`.
* C `double` is an ordered field `α` with a floor function; arithmetic on
  doubles is read as exact arithmetic in `α`.  Instantiating `α := ℚ` gives an
  executable model, `α := ℝ` with `Real.cos` and `Real.sin` gives the
  mathematical reading of the libm calls `cos(i)` and `sin(i)`.
* The library functions the program calls (`cos`, `sin`, `SDL_MapRGB`) are
  fields of an environment `Env`.
* Every observable action of a thread (a call of `drawCircle`, a store into
  the pixel array, taking or releasing the mutex, presenting the surface,
  sleeping) is appended to `World.trace`.
* A store outside the pixel array is a fault: the function returns `none`.
-/

namespace Ripple

/-- The fields of `SDL_Surface` the program uses: width `w`, height `h` and the
    `Uint32` pixel array (row-major, one entry per pixel). -/
structure Surface where
  w : Int
  h : Int
  pixels : List Nat

/-- Observable actions of one thread, in program order. -/
inductive Event where
  | lock
  | unlock
  | present
  | delay (ms : Nat)
  | call (radius : Int) (blackOrWhite : Int)
  | store (px : Int) (py : Int) (index : Int) (value : Nat)
  deriving DecidableEq, Repr

/-- What a thread of the program can observe and change: the window surface,
    the global `is_game_running` (written by the main thread only, hence given
    as its value after each number of completed `SDL_Delay` calls of the
    observing thread), that number `ticks`, and the trace of actions. -/
structure World where
  surface : Surface
  is_game_running : Nat → Int
  ticks : Nat
  trace : List Event

/-- The library functions called by the program: libm `cos` and `sin` applied
    to an `int` argument, and `SDL_MapRGB` for the format of the surface. -/
structure Env (α : Type) where
  cos : Nat → α
  sin : Nat → α
  mapRGB : Nat → Nat → Nat → Nat

section Generic

variable {α : Type} [LinearOrderedField α] [FloorRing α]

/-- Conversion of a `double` to `int`: the fractional part is discarded. -/
def truncToInt (v : α) : Int :=
  if 0 ≤ v then Int.floor v else Int.ceil v

/-- Conversion of a `double` to `Uint8`: truncation, kept to eight bits. -/
def toUint8 (v : α) : Nat :=
  (truncToInt v % 256).toNat

/-- The assignment `pixels[py * surface->w + px] = value`. -/
def storePixel (wd : World) (px py : Int) (value : Nat) : Option World :=
  let index := py * wd.surface.w + px
  if 0 ≤ index ∧ index < wd.surface.pixels.length then
    some { wd with
      surface := { wd.surface with pixels := wd.surface.pixels.set index.toNat value }
      trace := wd.trace ++ [Event.store px py index value] }
  else
    none

/-- The offsets `dx = radius * cos(i)` and `dy = radius * sin(i)` computed by
    iteration `i` of `drawCircle`, each converted to `int`. -/
def sampleOffset (env : Env α) (radius : Int) (i : Nat) : Int × Int :=
  (truncToInt ((radius : α) * env.cos i), truncToInt ((radius : α) * env.sin i))

/-- The value given to each of `r`, `g` and `b` by `drawCircle`:
    `255 - (255 * (radius / 200.0))` converted to `Uint8` when `blackOrWhite` is
    1, and 0 otherwise. -/
def channelValue (α : Type) [LinearOrderedField α] [FloorRing α]
    (radius blackOrWhite : Int) : Nat :=
  if blackOrWhite = 1 then toUint8 ((255 : α) - 255 * ((radius : α) / 200)) else 0

/-- One iteration of the loop `for (int i = 0; i < 360; i++)` of `drawCircle`. -/
def drawCircleIter (env : Env α) (x y radius blackOrWhite : Int) (wd : World) (i : Nat) :
    Option World :=
  let dx := (sampleOffset env radius i).1
  let dy := (sampleOffset env radius i).2
  if x + dx < 0 ∨ x + dx ≥ wd.surface.w ∨ y + dy < 0 ∨ y + dy ≥ wd.surface.h then
    some wd
  else
    let c := channelValue α radius blackOrWhite
    storePixel wd (x + dx) (y + dy) (env.mapRGB c c c)

/-- The function `drawCircle(surface, x, y, radius, blackOrWhite)`. -/
def drawCircle (env : Env α) (wd : World) (x y radius blackOrWhite : Int) : Option World :=
  (List.range 360).foldlM (drawCircleIter env x y radius blackOrWhite)
    { wd with trace := wd.trace ++ [Event.call radius blackOrWhite] }

/-- The call `SDL_Delay(ms)`: the thread sleeps, other threads run. -/
def SDL_Delay (ms : Nat) (wd : World) : World :=
  { wd with ticks := wd.ticks + 1, trace := wd.trace ++ [Event.delay ms] }

/-- One iteration of the loop `for (int i = 0; i < 200; i++)` of `drawRipple`. -/
def drawRippleIter (env : Env α) (x y : Int) (wd : World) (i : Nat) : Option World :=
  (drawCircle env wd x y ((i : Int) - 1) 0).bind fun w1 =>
  (drawCircle env w1 x y (i : Int) 1).bind fun w2 =>
  some (SDL_Delay 16 w2)

/-- The function `drawRipple(params)` with `params->x = x`, `params->y = y`. -/
def drawRipple (env : Env α) (wd : World) (x y : Int) : Option World :=
  (List.range 200).foldlM (drawRippleIter env x y) wd

end Generic

/-- The call `pthread_mutex_lock(&lock)`. -/
def mutexLock (wd : World) : World := { wd with trace := wd.trace ++ [Event.lock] }

/-- The call `pthread_mutex_unlock(&lock)`. -/
def mutexUnlock (wd : World) : World := { wd with trace := wd.trace ++ [Event.unlock] }

/-- The call `SDL_UpdateWindowSurface(window)`. -/
def SDL_UpdateWindowSurface (wd : World) : World :=
  { wd with trace := wd.trace ++ [Event.present] }

/-- The function `updateWindowSurface(window)`.  The `while` loop is unbounded,
    so the model takes a bound on the number of loop tests; `none` means the
    bound was reached with the loop still running. -/
def updateWindowSurface : Nat → World → Option World
  | 0, _ => none
  | fuel + 1, wd =>
    if wd.is_game_running wd.ticks = 1 then
      updateWindowSurface fuel
        (SDL_Delay 16 (mutexUnlock (SDL_UpdateWindowSurface (mutexLock wd))))
    else
      some wd

/-- The function `SDL_MapRGB` for the packed 32-bit format `SDL_PIXELFORMAT_RGB888`. -/
def mapRGB888 (r g b : Nat) : Nat := r * 65536 + g * 256 + b

/-- The environment in which `cos` and `sin` are the real cosine and sine of the
    `int` argument (in radians, as for libm) and pixels are `RGB888`. -/
noncomputable def realEnv : Env ℝ where
  cos := fun i => Real.cos (i : ℝ)
  sin := fun i => Real.sin (i : ℝ)
  mapRGB := mapRGB888

/-- The environment the comment `for each degree in a circle` describes: `cos`
    and `sin` of the `int` argument taken as an angle in degrees. -/
noncomputable def degreeEnv : Env ℝ where
  cos := fun i => Real.cos ((i : ℝ) * Real.pi / 180)
  sin := fun i => Real.sin ((i : ℝ) * Real.pi / 180)
  mapRGB := mapRGB888

/-- The offsets of sample `k` as the specification words them: the angle is
    `k` degrees and each offset is rounded to the nearest integer. -/
noncomputable def specOffset (radius : Int) (k : Nat) : Int × Int :=
  (round ((radius : ℝ) * Real.cos ((k : ℝ) * Real.pi / 180)),
   round ((radius : ℝ) * Real.sin ((k : ℝ) * Real.pi / 180)))

/-! ## Specification vocabulary

The definitions below are not part of the program; they describe what the
program does and are related to the embedding by the lemmas that follow. -/

/-- A surface whose pixel array has one entry per pixel, as SDL allocates it. -/
def Surface.WF (s : Surface) : Prop := (s.pixels.length : Int) = s.w * s.h

/-- Every pixel of the surface holds the value `v`. -/
def Surface.allPixels (s : Surface) (v : Nat) : Prop := ∀ p ∈ s.pixels, p = v

/-- A surface of the given size with every pixel equal to `v`. -/
def blankSurface (w h : Nat) (v : Nat) : Surface :=
  { w := w, h := h, pixels := List.replicate (w * h) v }

/-- A world in its initial state around a surface: the flag `is_game_running`
    has the given history, no `SDL_Delay` has completed, nothing was traced. -/
def initialWorld (s : Surface) (running : Nat → Int) : World :=
  { surface := s, is_game_running := running, ticks := 0, trace := [] }

/-- A 4 × 3 all-black surface in its initial world. -/
def smallWorld : World := initialWorld (blankSurface 4 3 0) (fun _ => 1)

/-- The 640 × 480 all-black window surface of the program in its initial world. -/
def windowWorld (running : Nat → Int) : World :=
  initialWorld (blankSurface 640 480 0) running

/-- The test of `drawCircle` that lets a write through: the point is inside
    `[0, w) × [0, h)`. -/
def inBounds (w h : Int) (p : Int × Int) : Bool :=
  decide (0 ≤ p.1 ∧ p.1 < w ∧ 0 ≤ p.2 ∧ p.2 < h)

/-- The row-major index of a point on a surface of width `w`. -/
def pixelIndex (w : Int) (p : Int × Int) : Int := p.2 * w + p.1

/-- Writing `v` at each of the points `ps` in turn. -/
def paintPixels (w : Int) (v : Nat) (pixels : List Nat) (ps : List (Int × Int)) : List Nat :=
  ps.foldl (fun acc p => acc.set (pixelIndex w p).toNat v) pixels

/-- The surface after writing `v` at each of the points `ps`. -/
def paint (s : Surface) (ps : List (Int × Int)) (v : Nat) : Surface :=
  { s with pixels := paintPixels s.w v s.pixels ps }

/-- The store events of writing `v` at each of the points `ps`. -/
def storeEvents (w : Int) (ps : List (Int × Int)) (v : Nat) : List Event :=
  ps.map fun p => Event.store p.1 p.2 (pixelIndex w p) v

/-- The array indices written when painting the points `ps`. -/
def paintedIndices (w : Int) (ps : List (Int × Int)) : List Nat :=
  ps.map fun p => (pixelIndex w p).toNat

/-- The `(radius, blackOrWhite)` arguments of the calls of `drawCircle` in a
    trace, in order. -/
def callLog (t : List Event) : List (Int × Int) :=
  t.filterMap fun e => match e with
    | Event.call r b => some (r, b)
    | _ => none

/-- The `(px, py)` coordinates of the stores in a trace, in order. -/
def storeCoords (t : List Event) : List (Int × Int) :=
  t.filterMap fun e => match e with
    | Event.store px py _ _ => some (px, py)
    | _ => none

/-- The two calls of frame `i`: erase at radius `i - 1`, then draw at radius `i`. -/
def frameCalls (i : Nat) : List (Int × Int) := [((i : Int) - 1, 0), ((i : Int), 1)]

/-- The number of `SDL_Delay` calls in a trace. -/
def delayCount (t : List Event) : Nat :=
  (t.filter fun e => match e with
    | Event.delay _ => true
    | _ => false).length

/-- Scan of a trace for the locking discipline: `held` tells whether the thread
    holds the mutex; the result is true when every store and every present of
    the trace happens while it does. -/
def underLock : Bool → List Event → Bool
  | _, [] => true
  | _, Event.lock :: t => underLock true t
  | _, Event.unlock :: t => underLock false t
  | held, Event.store _ _ _ _ :: t => held && underLock held t
  | held, Event.present :: t => held && underLock held t
  | held, _ :: t => underLock held t

section GenericSpec

variable {α : Type} [LinearOrderedField α] [FloorRing α]

/-- The pixel examined by iteration `i` of `drawCircle`. -/
def candidate (env : Env α) (x y radius : Int) (i : Nat) : Int × Int :=
  (x + (sampleOffset env radius i).1, y + (sampleOffset env radius i).2)

/-- The pixel value written by `drawCircle`. -/
def colour (env : Env α) (radius blackOrWhite : Int) : Nat :=
  env.mapRGB (channelValue α radius blackOrWhite) (channelValue α radius blackOrWhite)
    (channelValue α radius blackOrWhite)

/-- The candidates of the iterations `l` that pass the bounds test, in order. -/
def samplesOf (env : Env α) (w h x y radius : Int) (l : List Nat) : List (Int × Int) :=
  (l.map (candidate env x y radius)).filter (inBounds w h)

/-- The points written by one call of `drawCircle`, in order. -/
def ringSamples (env : Env α) (w h x y radius : Int) : List (Int × Int) :=
  samplesOf env w h x y radius (List.range 360)

/-- The world after one call of `drawCircle`. -/
def circleWorld (env : Env α) (wd : World) (x y radius blackOrWhite : Int) : World :=
  { wd with
    surface := paint wd.surface (ringSamples env wd.surface.w wd.surface.h x y radius)
      (colour env radius blackOrWhite)
    trace := wd.trace ++ Event.call radius blackOrWhite ::
      storeEvents wd.surface.w (ringSamples env wd.surface.w wd.surface.h x y radius)
        (colour env radius blackOrWhite) }

/-- The world after frame `i` of `drawRipple`. -/
def frameWorld (env : Env α) (x y : Int) (wd : World) (i : Nat) : World :=
  SDL_Delay 16 (circleWorld env (circleWorld env wd x y ((i : Int) - 1) 0) x y (i : Int) 1)

/-- The events traced by frame `i` of `drawRipple` on a surface of size `w × h`. -/
def frameEvents (env : Env α) (w h x y : Int) (i : Nat) : List Event :=
  Event.call ((i : Int) - 1) 0 ::
    storeEvents w (ringSamples env w h x y ((i : Int) - 1)) (colour env ((i : Int) - 1) 0) ++
  Event.call (i : Int) 1 ::
    storeEvents w (ringSamples env w h x y (i : Int)) (colour env (i : Int) 1) ++
  [Event.delay 16]

end GenericSpec

/-! ## The rasterizer loop -/

section GenericLemmas

variable {α : Type} [LinearOrderedField α] [FloorRing α]

theorem blankSurface_WF (w h v : Nat) : (blankSurface w h v).WF := by
  simp [Surface.WF, blankSurface]

theorem blankSurface_allPixels (w h v : Nat) : (blankSurface w h v).allPixels v := by
  intro p hp
  simp only [blankSurface, List.mem_replicate] at hp
  exact hp.2

theorem smallWorld_WF : smallWorld.surface.WF := blankSurface_WF 4 3 0

theorem pixelIndex_bounds (s : Surface) (hs : s.WF) (p : Int × Int)
    (hp : inBounds s.w s.h p = true) :
    0 ≤ pixelIndex s.w p ∧ pixelIndex s.w p < s.pixels.length := by
  simp only [inBounds, decide_eq_true_eq] at hp
  obtain ⟨h1, h2, h3, h4⟩ := hp
  unfold Surface.WF at hs
  unfold pixelIndex
  constructor
  · have : 0 ≤ p.2 * s.w := mul_nonneg h3 (by omega)
    omega
  · rw [hs]
    have : (p.2 + 1) * s.w ≤ s.h * s.w := mul_le_mul_of_nonneg_right (by omega) (by omega)
    nlinarith

theorem paintPixels_length (w : Int) (v : Nat) (ps : List (Int × Int)) :
    ∀ pixels : List Nat, (paintPixels w v pixels ps).length = pixels.length := by
  induction ps with
  | nil => intro pixels; rfl
  | cons p ps ih =>
    intro pixels
    simp only [paintPixels, List.foldl_cons] at ih ⊢
    rw [ih]; simp

theorem paint_WF (s : Surface) (hs : s.WF) (ps : List (Int × Int)) (v : Nat) :
    (paint s ps v).WF := by
  unfold paint Surface.WF
  simp only [paintPixels_length]
  exact hs

theorem paint_paint (s : Surface) (ps qs : List (Int × Int)) (v : Nat) :
    paint (paint s ps v) qs v = paint s (ps ++ qs) v := by
  simp [paint, paintPixels, List.foldl_append]

theorem samplesOf_cons (env : Env α) (w h x y radius : Int) (i : Nat) (l : List Nat) :
    samplesOf env w h x y radius (i :: l) =
      samplesOf env w h x y radius [i] ++ samplesOf env w h x y radius l := by
  simp only [samplesOf, List.map_cons, List.map_nil, List.filter_cons, List.filter_nil]
  split <;> simp

theorem drawCircleIter_eq (env : Env α) (x y radius bw : Int) (wd : World)
    (hs : wd.surface.WF) (i : Nat) :
    drawCircleIter env x y radius bw wd i =
      some { wd with
        surface := paint wd.surface
          (samplesOf env wd.surface.w wd.surface.h x y radius [i]) (colour env radius bw)
        trace := wd.trace ++ storeEvents wd.surface.w
          (samplesOf env wd.surface.w wd.surface.h x y radius [i]) (colour env radius bw) } := by
  by_cases hb : inBounds wd.surface.w wd.surface.h (candidate env x y radius i) = true
  · have hidx := pixelIndex_bounds wd.surface hs _ hb
    have hb' := hb
    simp only [inBounds, decide_eq_true_eq, candidate] at hb'
    have hg : ¬ (x + (sampleOffset env radius i).1 < 0 ∨
        x + (sampleOffset env radius i).1 ≥ wd.surface.w ∨
        y + (sampleOffset env radius i).2 < 0 ∨
        y + (sampleOffset env radius i).2 ≥ wd.surface.h) := by omega
    simp only [drawCircleIter, hg, if_false, storePixel]
    simp only [pixelIndex, candidate] at hidx
    rw [if_pos hidx]
    have hbc : inBounds wd.surface.w wd.surface.h
        (x + (sampleOffset env radius i).1, y + (sampleOffset env radius i).2) = true := hb
    simp [samplesOf, hbc, paint, paintPixels, storeEvents, pixelIndex, candidate, colour]
  · have hb' := hb
    simp only [inBounds, decide_eq_true_eq, candidate] at hb'
    have hg : (x + (sampleOffset env radius i).1 < 0 ∨
        x + (sampleOffset env radius i).1 ≥ wd.surface.w ∨
        y + (sampleOffset env radius i).2 < 0 ∨
        y + (sampleOffset env radius i).2 ≥ wd.surface.h) := by omega
    simp only [drawCircleIter, hg, if_true]
    simp [samplesOf, hb, paint, paintPixels, storeEvents]

theorem drawCircle_loop (env : Env α) (x y radius bw : Int) (l : List Nat) :
    ∀ (wd : World), wd.surface.WF →
    l.foldlM (drawCircleIter env x y radius bw) wd =
      some { wd with
        surface := paint wd.surface
          (samplesOf env wd.surface.w wd.surface.h x y radius l) (colour env radius bw)
        trace := wd.trace ++ storeEvents wd.surface.w
          (samplesOf env wd.surface.w wd.surface.h x y radius l) (colour env radius bw) } := by
  induction l with
  | nil => intro wd _; simp [samplesOf, paint, paintPixels, storeEvents]
  | cons i l ih =>
    intro wd hs
    rw [List.foldlM_cons, drawCircleIter_eq env x y radius bw wd hs i]
    simp only [Option.some_bind, Option.bind_eq_bind]
    rw [ih _ (paint_WF _ hs _ _)]
    simp only [paint_paint]
    have hc := samplesOf_cons env wd.surface.w wd.surface.h x y radius i l
    simp [paint, storeEvents, List.append_assoc, hc]

/-- On a well-formed surface a call of `drawCircle` returns, and its effect is
    to write one colour at the in-bounds candidates, in order. -/
theorem drawCircle_eq (env : Env α) (wd : World) (hs : wd.surface.WF)
    (x y radius bw : Int) :
    drawCircle env wd x y radius bw = some (circleWorld env wd x y radius bw) := by
  unfold drawCircle circleWorld
  rw [drawCircle_loop env x y radius bw (List.range 360)
    { wd with trace := wd.trace ++ [Event.call radius bw] } hs]
  simp [ringSamples, List.append_assoc]

theorem circleWorld_WF (env : Env α) (wd : World) (hs : wd.surface.WF)
    (x y radius bw : Int) : (circleWorld env wd x y radius bw).surface.WF :=
  paint_WF _ hs _ _

/-! ## Pixels after painting -/

theorem pixelIndex_inj (w h : Int) (p q : Int × Int) (hp : inBounds w h p = true)
    (hq : inBounds w h q = true)
    (he : (pixelIndex w p).toNat = (pixelIndex w q).toNat) : p = q := by
  simp only [inBounds, decide_eq_true_eq] at hp hq
  obtain ⟨p1, p2, p3, p4⟩ := hp
  obtain ⟨q1, q2, q3, q4⟩ := hq
  have hpn : 0 ≤ pixelIndex w p := by
    unfold pixelIndex
    have : 0 ≤ p.2 * w := mul_nonneg p3 (by omega)
    omega
  have hqn : 0 ≤ pixelIndex w q := by
    unfold pixelIndex
    have : 0 ≤ q.2 * w := mul_nonneg q3 (by omega)
    omega
  have hi : pixelIndex w p = pixelIndex w q := by omega
  unfold pixelIndex at hi
  have hm : (p.2 * w + p.1) % w = (q.2 * w + q.1) % w := by rw [hi]
  rw [add_comm, Int.add_mul_emod_self, add_comm (q.2 * w), Int.add_mul_emod_self,
    Int.emod_eq_of_lt p1 p2, Int.emod_eq_of_lt q1 q2] at hm
  have h2 : p.2 * w = q.2 * w := by omega
  have hw : w ≠ 0 := by omega
  have h3 : p.2 = q.2 := mul_right_cancel₀ hw h2
  exact Prod.ext hm h3

theorem mem_paintedIndices (w h : Int) (ps : List (Int × Int))
    (hps : ∀ q ∈ ps, inBounds w h q = true) (p : Int × Int) (hp : inBounds w h p = true) :
    (pixelIndex w p).toNat ∈ paintedIndices w ps ↔ p ∈ ps := by
  simp only [paintedIndices, List.mem_map]
  constructor
  · rintro ⟨q, hq, he⟩
    have := pixelIndex_inj w h q p (hps q hq) hp he
    rwa [← this]
  · intro h1
    exact ⟨p, h1, rfl⟩

theorem paintPixels_getElem? (w : Int) (v : Nat) (ps : List (Int × Int)) :
    ∀ (pixels : List Nat) (k : Nat),
      (paintPixels w v pixels ps)[k]? =
        if k ∈ paintedIndices w ps then pixels[k]?.map (fun _ => v) else pixels[k]? := by
  induction ps with
  | nil => intro pixels k; simp [paintPixels, paintedIndices]
  | cons p ps ih =>
    intro pixels k
    have h := ih (pixels.set (pixelIndex w p).toNat v) k
    simp only [paintPixels, List.foldl_cons, paintedIndices, List.map_cons, List.mem_cons] at h ⊢
    rw [h, List.getElem?_set]
    by_cases hk : k ∈ List.map (fun p => (pixelIndex w p).toNat) ps
    · simp only [hk, if_true, or_true]
      by_cases he : (pixelIndex w p).toNat = k
      · subst he
        by_cases hl : (pixelIndex w p).toNat < pixels.length
        · simp [hl]
        · simp [hl, List.getElem?_eq_none (Nat.le_of_not_lt hl)]
      · simp [he]
    · simp only [hk, if_false, or_false]
      by_cases he : (pixelIndex w p).toNat = k
      · subst he
        by_cases hl : (pixelIndex w p).toNat < pixels.length
        · simp [hl]
        · simp [hl, List.getElem?_eq_none (Nat.le_of_not_lt hl)]
      · have he' : ¬ k = (pixelIndex w p).toNat := fun h => he h.symm
        simp [he, he']

theorem paint_same (s : Surface) (v : Nat) (hv : s.allPixels v) (ps : List (Int × Int)) :
    paint s ps v = s := by
  have : paintPixels s.w v s.pixels ps = s.pixels := by
    apply List.ext_getElem?
    intro k
    rw [paintPixels_getElem?]
    split
    · cases hk : s.pixels[k]? with
      | none => rfl
      | some a =>
        have : a ∈ s.pixels := List.getElem?_mem hk
        simp [hv a this]
    · rfl
  simp only [paint, this]

theorem paint_erase (s : Surface) (v c : Nat) (hv : s.allPixels v) (ps : List (Int × Int)) :
    paint (paint s ps c) ps v = s := by
  have : paintPixels s.w v (paintPixels s.w c s.pixels ps) ps = s.pixels := by
    apply List.ext_getElem?
    intro k
    rw [paintPixels_getElem?, paintPixels_getElem?]
    split
    · cases hk : s.pixels[k]? with
      | none => rfl
      | some a =>
        have : a ∈ s.pixels := List.getElem?_mem hk
        simp [hv a this]
    · rfl
  simp only [paint, this]

/-- The pixel of an in-bounds point after painting in-bounds points `ps`. -/
theorem paint_pixel (s : Surface) (hs : s.WF) (ps : List (Int × Int))
    (hps : ∀ q ∈ ps, inBounds s.w s.h q = true) (v b : Nat) (hb : s.allPixels b)
    (p : Int × Int) (hp : inBounds s.w s.h p = true) :
    (paint s ps v).pixels[(pixelIndex s.w p).toNat]? = some (if p ∈ ps then v else b) := by
  have hi := pixelIndex_bounds s hs p hp
  have hlt : (pixelIndex s.w p).toNat < s.pixels.length := by omega
  have hget : s.pixels[(pixelIndex s.w p).toNat]? = some b := by
    rw [List.getElem?_eq_getElem hlt]
    exact congrArg some (hb _ (List.getElem_mem hlt))
  simp only [paint]
  rw [paintPixels_getElem?, hget]
  by_cases hm : p ∈ ps
  · have := (mem_paintedIndices s.w s.h ps hps p hp).mpr hm
    simp [this, hm]
  · have : ¬ (pixelIndex s.w p).toNat ∈ paintedIndices s.w ps :=
      fun h => hm ((mem_paintedIndices s.w s.h ps hps p hp).mp h)
    simp [this, hm]

/-! ## The animation loop -/

theorem frameWorld_WF (env : Env α) (x y : Int) (wd : World) (hs : wd.surface.WF) (i : Nat) :
    (frameWorld env x y wd i).surface.WF :=
  circleWorld_WF env _ (circleWorld_WF env wd hs _ _ _ _) _ _ _ _

theorem drawRippleIter_eq (env : Env α) (x y : Int) (wd : World) (hs : wd.surface.WF) (i : Nat) :
    drawRippleIter env x y wd i = some (frameWorld env x y wd i) := by
  unfold drawRippleIter
  rw [drawCircle_eq env wd hs]
  simp only [Option.some_bind]
  rw [drawCircle_eq env _ (circleWorld_WF env wd hs _ _ _ _)]
  simp only [Option.some_bind, frameWorld]

theorem drawRipple_loop (env : Env α) (x y : Int) (l : List Nat) :
    ∀ wd : World, wd.surface.WF →
      l.foldlM (drawRippleIter env x y) wd = some (l.foldl (frameWorld env x y) wd) := by
  induction l with
  | nil => intro wd _; rfl
  | cons i l ih =>
    intro wd hs
    rw [List.foldlM_cons, drawRippleIter_eq env x y wd hs i]
    simp only [Option.some_bind, Option.bind_eq_bind, List.foldl_cons]
    exact ih _ (frameWorld_WF env x y wd hs i)

theorem drawRipple_eq (env : Env α) (wd : World) (hs : wd.surface.WF) (x y : Int) :
    drawRipple env wd x y = some ((List.range 200).foldl (frameWorld env x y) wd) :=
  drawRipple_loop env x y _ wd hs

theorem frameWorld_size (env : Env α) (x y : Int) (wd : World) (i : Nat) :
    (frameWorld env x y wd i).surface.w = wd.surface.w ∧
    (frameWorld env x y wd i).surface.h = wd.surface.h := ⟨rfl, rfl⟩

theorem frameWorld_trace (env : Env α) (x y : Int) (wd : World) (i : Nat) :
    (frameWorld env x y wd i).trace =
      wd.trace ++ frameEvents env wd.surface.w wd.surface.h x y i := by
  simp [frameWorld, SDL_Delay, circleWorld, frameEvents, paint, List.append_assoc]

theorem frames_facts (env : Env α) (x y : Int) (l : List Nat) :
    ∀ wd : World,
      (l.foldl (frameWorld env x y) wd).surface.w = wd.surface.w ∧
      (l.foldl (frameWorld env x y) wd).surface.h = wd.surface.h ∧
      (l.foldl (frameWorld env x y) wd).is_game_running = wd.is_game_running ∧
      (l.foldl (frameWorld env x y) wd).ticks = wd.ticks + l.length ∧
      (l.foldl (frameWorld env x y) wd).trace =
        wd.trace ++ l.flatMap (frameEvents env wd.surface.w wd.surface.h x y) := by
  induction l with
  | nil => intro wd; simp
  | cons i l ih =>
    intro wd
    obtain ⟨h1, h2, h3, h4, h5⟩ := ih (frameWorld env x y wd i)
    simp only [List.foldl_cons, List.flatMap_cons, List.length_cons]
    refine ⟨h1, h2, h3, ?_, ?_⟩
    · rw [h4]; simp only [frameWorld, SDL_Delay, circleWorld]; omega
    · rw [h5, frameWorld_trace]
      simp only [(frameWorld_size env x y wd i).1, (frameWorld_size env x y wd i).2,
        List.append_assoc]


theorem colour_erase (env : Env α) (radius : Int) : colour env radius 0 = env.mapRGB 0 0 0 := by
  simp [colour, channelValue]

theorem frameWorld_surface (env : Env α) (x y : Int) (wd : World) (i : Nat) :
    (frameWorld env x y wd i).surface =
      paint (paint wd.surface (ringSamples env wd.surface.w wd.surface.h x y ((i : Int) - 1))
          (env.mapRGB 0 0 0))
        (ringSamples env wd.surface.w wd.surface.h x y (i : Int)) (colour env (i : Int) 1) := by
  simp [frameWorld, SDL_Delay, circleWorld, colour_erase, paint]

/-- The surface after the first `n + 1` frames of a ripple on a blank surface:
    the blank surface with the ring of radius `n` painted on it. -/
theorem frames_surface (env : Env α) (x y : Int) (wd : World)
    (hb : wd.surface.allPixels (env.mapRGB 0 0 0)) (n : Nat) :
    ((List.range (n + 1)).foldl (frameWorld env x y) wd).surface =
      paint wd.surface (ringSamples env wd.surface.w wd.surface.h x y (n : Int))
        (colour env (n : Int) 1) := by
  induction n with
  | zero =>
    simp only [List.range_succ, List.range_zero, List.nil_append, List.foldl_cons, List.foldl_nil]
    rw [frameWorld_surface, paint_same _ _ hb]
  | succ n ih =>
    rw [List.range_succ, List.foldl_append]
    simp only [List.foldl_cons, List.foldl_nil]
    rw [frameWorld_surface, ih]
    have hc : (((n + 1 : Nat) : Int) - 1) = (n : Int) := by push_cast; ring
    rw [hc]
    have hw : (paint wd.surface (ringSamples env wd.surface.w wd.surface.h x y (n : Int))
        (colour env (n : Int) 1)).w = wd.surface.w := rfl
    have hh : (paint wd.surface (ringSamples env wd.surface.w wd.surface.h x y (n : Int))
        (colour env (n : Int) 1)).h = wd.surface.h := rfl
    rw [hw, hh, paint_erase _ _ _ hb]


/-! ## Traces -/

theorem storeCoords_storeEvents (w : Int) (ps : List (Int × Int)) (v : Nat) :
    storeCoords (storeEvents w ps v) = ps := by
  induction ps with
  | nil => rfl
  | cons p ps ih =>
    simp only [storeEvents, List.map_cons, storeCoords, List.filterMap_cons] at ih ⊢
    rw [ih]

theorem callLog_storeEvents (w : Int) (ps : List (Int × Int)) (v : Nat) :
    callLog (storeEvents w ps v) = [] := by
  induction ps with
  | nil => rfl
  | cons p ps ih =>
    simp only [storeEvents, List.map_cons, callLog, List.filterMap_cons] at ih ⊢
    exact ih

theorem delayCount_storeEvents (w : Int) (ps : List (Int × Int)) (v : Nat) :
    delayCount (storeEvents w ps v) = 0 := by
  induction ps with
  | nil => rfl
  | cons p ps ih =>
    simp only [storeEvents, List.map_cons, delayCount, List.filter_cons] at ih ⊢
    exact ih

theorem callLog_append (s t : List Event) : callLog (s ++ t) = callLog s ++ callLog t := by
  simp [callLog, List.filterMap_append]

theorem delayCount_append (s t : List Event) : delayCount (s ++ t) = delayCount s + delayCount t := by
  simp [delayCount, List.filter_append]

theorem mem_ringSamples (env : Env α) (w h x y radius : Int) (p : Int × Int)
    (hp : p ∈ ringSamples env w h x y radius) : inBounds w h p = true := by
  simp only [ringSamples, samplesOf, List.mem_filter] at hp
  exact hp.2

theorem callLog_frameEvents (env : Env α) (w h x y : Int) (i : Nat) :
    callLog (frameEvents env w h x y i) = [((i : Int) - 1, 0), ((i : Int), 1)] := by
  simp only [frameEvents, List.cons_append, callLog_append]
  simp only [callLog, List.filterMap_cons, List.filterMap_nil, List.filterMap_append]
  have h1 := callLog_storeEvents w (ringSamples env w h x y ((i : Int) - 1)) (colour env ((i : Int) - 1) 0)
  have h2 := callLog_storeEvents w (ringSamples env w h x y (i : Int)) (colour env (i : Int) 1)
  simp only [callLog] at h1 h2
  rw [h1, h2]
  rfl

theorem delayCount_frameEvents (env : Env α) (w h x y : Int) (i : Nat) :
    delayCount (frameEvents env w h x y i) = 1 := by
  have h1 := delayCount_storeEvents w (ringSamples env w h x y ((i : Int) - 1)) (colour env ((i : Int) - 1) 0)
  have h2 := delayCount_storeEvents w (ringSamples env w h x y (i : Int)) (colour env (i : Int) 1)
  simp only [frameEvents, List.cons_append]
  simp only [delayCount, List.filter_cons, List.filter_append, List.filter_nil] at h1 h2 ⊢
  simp [h1, h2]

theorem callLog_frames (env : Env α) (w h x y : Int) (l : List Nat) :
    callLog (l.flatMap (frameEvents env w h x y)) = l.flatMap frameCalls := by
  induction l with
  | nil => rfl
  | cons i l ih =>
    simp only [List.flatMap_cons, callLog_append, ih, callLog_frameEvents, frameCalls]

theorem delayCount_frames (env : Env α) (w h x y : Int) (l : List Nat) :
    delayCount (l.flatMap (frameEvents env w h x y)) = l.length := by
  induction l with
  | nil => rfl
  | cons i l ih =>
    simp only [List.flatMap_cons, delayCount_append, ih, delayCount_frameEvents, List.length_cons]
    omega

theorem frameCalls_draws (l : List Nat) :
    ((l.flatMap frameCalls).filter (fun c => decide (c.2 = 1))).map Prod.fst =
      l.map Int.ofNat := by
  induction l with
  | nil => rfl
  | cons i l ih =>
    simp only [List.flatMap_cons, List.filter_append, List.map_append, ih, frameCalls]
    simp [List.filter_cons]

theorem frameCalls_length (l : List Nat) : (l.flatMap frameCalls).length = 2 * l.length := by
  induction l with
  | nil => rfl
  | cons i l ih =>
    simp only [List.flatMap_cons, List.length_append, ih, frameCalls, List.length_cons,
      List.length_nil]
    omega

theorem frameCalls_getElem? (l : List Nat) :
    ∀ k : Nat,
      (l.flatMap frameCalls)[2 * k]? = l[k]?.map (fun (i : Nat) => ((i : Int) - 1, (0 : Int))) ∧
      (l.flatMap frameCalls)[2 * k + 1]? = l[k]?.map (fun (i : Nat) => ((i : Int), (1 : Int))) := by
  induction l with
  | nil => intro k; simp
  | cons i l ih =>
    intro k
    cases k with
    | zero => simp [frameCalls]
    | succ k =>
      have h := ih k
      have e1 : 2 * (k + 1) = (2 * k) + 1 + 1 := by ring
      have e2 : 2 * (k + 1) + 1 = (2 * k + 1) + 1 + 1 := by ring
      simp only [List.flatMap_cons, frameCalls, List.cons_append, List.nil_append] at h ⊢
      rw [e2, e1]
      simpa using h

/-- The whole run of `drawRipple` on a well-formed surface: it returns, after
    200 further `SDL_Delay` calls, having traced the 200 frames in order. -/
theorem drawRipple_run (env : Env α) (wd : World) (hs : wd.surface.WF) (x y : Int) :
    ∃ wd', drawRipple env wd x y = some wd' ∧
      wd'.surface.w = wd.surface.w ∧ wd'.surface.h = wd.surface.h ∧
      wd'.is_game_running = wd.is_game_running ∧
      wd'.ticks = wd.ticks + 200 ∧
      wd'.trace = wd.trace ++
        (List.range 200).flatMap (frameEvents env wd.surface.w wd.surface.h x y) := by
  obtain ⟨h1, h2, h3, h4, h5⟩ := frames_facts env x y (List.range 200) wd
  refine ⟨_, drawRipple_eq env wd hs x y, h1, h2, h3, ?_, h5⟩
  rw [h4, List.length_range]

/-! ## The channel value -/

theorem floor_intCast_div (a : Int) (b : Nat) (hb : 0 < b) :
    Int.floor ((a : α) / (b : α)) = a / (b : Int) := by
  rw [Int.floor_eq_iff]
  have hbα : (0 : α) < (b : α) := by exact_mod_cast hb
  have hbz : (0 : Int) < (b : Int) := by exact_mod_cast hb
  constructor
  · rw [le_div_iff₀ hbα]
    have : a / (b : Int) * (b : Int) ≤ a := Int.ediv_mul_le a (ne_of_gt hbz)
    exact_mod_cast this
  · rw [div_lt_iff₀ hbα]
    have : a < (a / (b : Int) + 1) * (b : Int) := Int.lt_ediv_add_one_mul_self a hbz
    exact_mod_cast this

theorem channelValue_draw (radius : Int) (h0 : 0 ≤ radius) (h1 : radius ≤ 200) :
    channelValue α radius 1 = ((51000 - 255 * radius) / 200).toNat := by
  have hv : (255 : α) - 255 * ((radius : α) / 200) =
      ((51000 - 255 * radius : Int) : α) / ((200 : Nat) : α) := by
    push_cast; ring
  have hnn : (0 : α) ≤ ((51000 - 255 * radius : Int) : α) / ((200 : Nat) : α) := by
    apply div_nonneg
    · have : (0 : Int) ≤ 51000 - 255 * radius := by omega
      exact_mod_cast this
    · positivity
  simp only [channelValue, if_true, toUint8, truncToInt]
  rw [hv, if_pos hnn, floor_intCast_div _ 200 (by norm_num)]
  congr 1
  omega

theorem channelValue_mono (r r' : Int) (h0 : 0 ≤ r) (h1 : r ≤ r') (h2 : r' ≤ 199) :
    channelValue α r' 1 ≤ channelValue α r 1 := by
  rw [channelValue_draw r' (by omega) (by omega), channelValue_draw r h0 (by omega)]
  omega

theorem channelValue_zero : channelValue α 0 1 = 255 := by
  have h : channelValue α 0 1 = (((51000 : Int) - 255 * 0) / 200).toNat :=
    channelValue_draw 0 (by norm_num) (by norm_num)
  rw [h]; decide

theorem channelValue_last : channelValue α 199 1 = 1 := by
  have h : channelValue α 199 1 = (((51000 : Int) - 255 * 199) / 200).toNat :=
    channelValue_draw 199 (by norm_num) (by norm_num)
  rw [h]; decide


/-- The surface left by a whole run of `drawRipple` on a blank surface: the
    blank surface with the ring of radius 199 painted in the faintest colour. -/
theorem drawRipple_final_surface (env : Env α) (wd : World) (hs : wd.surface.WF)
    (hb : wd.surface.allPixels (env.mapRGB 0 0 0)) (x y : Int) :
    ∃ wd', drawRipple env wd x y = some wd' ∧
      wd'.surface = paint wd.surface (ringSamples env wd.surface.w wd.surface.h x y 199)
        (env.mapRGB 1 1 1) := by
  refine ⟨_, drawRipple_eq env wd hs x y, ?_⟩
  have h := frames_surface env x y wd hb 199
  have hc : colour env ((199 : Nat) : Int) 1 = env.mapRGB 1 1 1 := by
    simp only [colour, Nat.cast_ofNat, channelValue_last]
  rw [hc] at h
  exact h

theorem channelValue_erase (radius : Int) : channelValue α radius 0 = 0 := by
  simp [channelValue]

theorem frameEvents_zero (env : Env α) (w h x y : Int) :
    frameEvents env w h x y 0 =
      Event.call (-1) 0 :: storeEvents w (ringSamples env w h x y (-1)) (env.mapRGB 0 0 0) ++
      Event.call 0 1 :: storeEvents w (ringSamples env w h x y 0) (env.mapRGB 255 255 255) ++
      [Event.delay 16] := by
  have h1 : (0 : Int) - 1 = -1 := by norm_num
  simp only [frameEvents, Nat.cast_zero, h1, colour_erase]
  simp only [colour, channelValue_zero]

theorem frames_flag (env : Env α) (x y : Int) (running : Nat → Int) (l : List Nat) :
    ∀ wd : World,
      l.foldl (frameWorld env x y) { wd with is_game_running := running } =
        { l.foldl (frameWorld env x y) wd with is_game_running := running } := by
  induction l with
  | nil => intro wd; rfl
  | cons i l ih =>
    intro wd
    simp only [List.foldl_cons]
    exact ih (frameWorld env x y wd i)

theorem truncToInt_toward_zero (v : α) :
    |((truncToInt v : Int) : α)| ≤ |v| ∧ |v - ((truncToInt v : Int) : α)| < 1 := by
  unfold truncToInt
  split
  · rename_i h
    have h1 : ((Int.floor v : Int) : α) ≤ v := Int.floor_le v
    have h2 : v < ((Int.floor v : Int) : α) + 1 := Int.lt_floor_add_one v
    have h3 : (0 : α) ≤ ((Int.floor v : Int) : α) := by
      have : (0 : Int) ≤ Int.floor v := Int.floor_nonneg.mpr h
      exact_mod_cast this
    constructor
    · rw [abs_of_nonneg h3, abs_of_nonneg h]; exact h1
    · rw [abs_of_nonneg (by linarith)]; linarith
  · rename_i h
    have hv : v < 0 := lt_of_not_ge h
    have h1 : v ≤ ((Int.ceil v : Int) : α) := Int.le_ceil v
    have h2 : ((Int.ceil v : Int) : α) < v + 1 := Int.ceil_lt_add_one v
    have h3 : ((Int.ceil v : Int) : α) ≤ 0 := by
      have : Int.ceil v ≤ 0 := Int.ceil_le.mpr (by simpa using hv.le)
      exact_mod_cast this
    constructor
    · rw [abs_of_nonpos h3, abs_of_neg hv]; linarith
    · rw [abs_of_nonpos (by linarith)]; linarith

/-- The function `drawRipple` does not read `is_game_running`: whatever the
    history of the flag, it returns after all 200 frames with the same surface,
    the same trace (so the same 400 calls of `drawCircle`) and the same tick
    count as under any other history. -/
theorem drawRipple_ignores_running_flag (env : Env α) (wd : World) (hs : wd.surface.WF)
    (x y : Int) (running : Nat → Int) :
    ∃ wd1 wd2, drawRipple env wd x y = some wd1 ∧
      drawRipple env { wd with is_game_running := running } x y = some wd2 ∧
      wd2.surface = wd1.surface ∧ wd2.trace = wd1.trace ∧ wd2.ticks = wd1.ticks ∧
      wd1.ticks = wd.ticks + 200 ∧
      (callLog wd1.trace).length = (callLog wd.trace).length + 400 := by
  obtain ⟨h1, h2, h3, h4, h5⟩ := frames_facts env x y (List.range 200) wd
  refine ⟨_, _, drawRipple_eq env wd hs x y,
    drawRipple_eq env { wd with is_game_running := running } hs x y, ?_, ?_, ?_, ?_, ?_⟩
  · rw [frames_flag]
  · rw [frames_flag]
  · rw [frames_flag]
  · rw [h4, List.length_range]
  · rw [h5, callLog_append, callLog_frames, List.length_append, frameCalls_length,
      List.length_range]

theorem truncToInt_intCast (z : Int) : truncToInt (z : α) = z := by
  unfold truncToInt
  split <;> simp

end GenericLemmas

/-! ## The refresh thread -/

/-- When `updateWindowSurface` returns, what it traced is a sequence of cycles
    lock, present, unlock, delay, and the flag it last read was not 1. -/
theorem updateWindowSurface_trace (fuel : Nat) :
    ∀ (wd wd' : World), updateWindowSurface fuel wd = some wd' →
      ∃ n : Nat, wd'.trace = wd.trace ++
        (List.replicate n [Event.lock, Event.present, Event.unlock, Event.delay 16]).flatten ∧
        wd'.ticks = wd.ticks + n ∧ wd'.is_game_running wd'.ticks ≠ 1 := by
  induction fuel with
  | zero => intro wd wd' h; simp [updateWindowSurface] at h
  | succ fuel ih =>
    intro wd wd' h
    simp only [updateWindowSurface] at h
    split at h
    · obtain ⟨n, h1, h2, h3⟩ := ih _ _ h
      refine ⟨n + 1, ?_, ?_, h3⟩
      · rw [h1]
        simp [SDL_Delay, mutexUnlock, SDL_UpdateWindowSurface, mutexLock, List.replicate_succ]
      · rw [h2]
        simp only [SDL_Delay, mutexUnlock, SDL_UpdateWindowSurface, mutexLock]
        omega
    · rename_i hne
      simp only [Option.some.injEq] at h
      subst h
      exact ⟨0, by simp, by simp, hne⟩

theorem underLock_cycles (n : Nat) (held : Bool) :
    underLock held
      (List.replicate n [Event.lock, Event.present, Event.unlock, Event.delay 16]).flatten
      = true := by
  induction n generalizing held with
  | zero => simp [underLock]
  | succ n ih =>
    simp only [List.replicate_succ, List.flatten_cons, List.cons_append, List.nil_append,
      underLock, Bool.true_and]
    exact ih false

/-- The refresh thread keeps the locking discipline: every present it makes
    happens with the mutex held. -/
theorem updateWindowSurface_underLock (fuel : Nat) (wd wd' : World)
    (h : updateWindowSurface fuel wd = some wd') :
    ∃ t, wd'.trace = wd.trace ++ t ∧ underLock false t = true := by
  obtain ⟨n, h1, _, _⟩ := updateWindowSurface_trace fuel wd wd' h
  exact ⟨_, h1, underLock_cycles n false⟩

/-- The refresh thread returns once the flag is seen cleared: if
    `is_game_running` is 1 at the next `n` loop tests and not at the one after,
    `updateWindowSurface` returns after `n` cycles. -/
theorem updateWindowSurface_returns (n : Nat) :
    ∀ (wd : World), (∀ k, k < n → wd.is_game_running (wd.ticks + k) = 1) →
      wd.is_game_running (wd.ticks + n) ≠ 1 →
      ∃ wd', updateWindowSurface (n + 1) wd = some wd' ∧ wd'.ticks = wd.ticks + n := by
  induction n with
  | zero =>
    intro wd _ hstop
    refine ⟨wd, ?_, rfl⟩
    simp only [updateWindowSurface]
    rw [if_neg (by simpa using hstop)]
  | succ n ih =>
    intro wd hrun hstop
    have h0 : wd.is_game_running wd.ticks = 1 := by simpa using hrun 0 (Nat.succ_pos n)
    obtain ⟨wd', h1, h2⟩ := ih
      (SDL_Delay 16 (mutexUnlock (SDL_UpdateWindowSurface (mutexLock wd))))
      (by
        intro k hk
        have := hrun (k + 1) (by omega)
        simp only [SDL_Delay, mutexUnlock, SDL_UpdateWindowSurface, mutexLock]
        rw [← this]; congr 1; omega)
      (by
        simp only [SDL_Delay, mutexUnlock, SDL_UpdateWindowSurface, mutexLock]
        intro h
        apply hstop
        rw [← h]; congr 1; omega)
    refine ⟨wd', ?_, ?_⟩
    · rw [updateWindowSurface, if_pos h0]
      exact h1
    · rw [h2]
      simp only [SDL_Delay, mutexUnlock, SDL_UpdateWindowSurface, mutexLock]
      omega

/-! ## The real environment -/

theorem sampleOffset_real_zero (radius : Int) : sampleOffset realEnv radius 0 = (radius, 0) := by
  simp only [sampleOffset, realEnv, Nat.cast_zero, Real.cos_zero, Real.sin_zero, mul_one, mul_zero]
  rw [truncToInt_intCast]
  have h0 : truncToInt (((0 : Int) : ℝ)) = 0 := truncToInt_intCast 0
  rw [Int.cast_zero] at h0
  rw [h0]


theorem cos_ninety_le : Real.cos 90 ≤ -(43 / 100) := by
  have hpl := Real.pi_gt_d6
  have hpu := Real.pi_lt_d6
  have hy0 : (0.46 : ℝ) ≤ 90 - 57 * Real.pi / 2 := by linarith
  have hy1 : 90 - 57 * Real.pi / 2 ≤ (0.47 : ℝ) := by linarith
  have hsin : (90 - 57 * Real.pi / 2) - (90 - 57 * Real.pi / 2) ^ 3 / 4 <
      Real.sin (90 - 57 * Real.pi / 2) :=
    Real.sin_gt_sub_cube (by linarith) (by linarith)
  have hcube : (90 - 57 * Real.pi / 2) ^ 3 ≤ (0.47 : ℝ) ^ 3 :=
    pow_le_pow_left₀ (by linarith) hy1 3
  have hc : Real.cos 90 = -Real.sin (90 - 57 * Real.pi / 2) := by
    rw [← Real.cos_add_pi_div_two, ← Real.cos_sub_nat_mul_two_pi 90 14]
    congr 1
    push_cast
    ring
  rw [hc]
  norm_num at hcube hy0 hy1 ⊢
  linarith

theorem sampleOffset_real_100_90 : (sampleOffset realEnv 100 90).1 ≤ -43 := by
  have h := cos_ninety_le
  have hcos : realEnv.cos 90 = Real.cos 90 := by simp [realEnv]
  have hv : ((100 : Int) : ℝ) * realEnv.cos 90 ≤ ((-43 : Int) : ℝ) := by
    rw [hcos]
    push_cast
    linarith
  have hneg : ¬ (0 : ℝ) ≤ ((100 : Int) : ℝ) * realEnv.cos 90 := by
    rw [hcos]
    push_cast
    intro h0
    linarith
  simp only [sampleOffset, truncToInt, if_neg hneg]
  exact Int.ceil_le.mpr hv

theorem floor_eq_zero_of (v : ℝ) (h0 : 0 ≤ v) (h1 : v < 1) : truncToInt v = 0 := by
  simp only [truncToInt, if_pos h0]
  rw [Int.floor_eq_iff]
  constructor
  · simpa using h0
  · simpa using h1

theorem sampleOffset_real_1_1 : sampleOffset realEnv 1 1 = (0, 0) := by
  have hc0 := Real.cos_one_pos
  have hc1 := Real.cos_one_le
  have hs0 : 0 < Real.sin 1 := Real.sin_pos_of_pos_of_lt_pi one_pos (by linarith [Real.pi_gt_three])
  have hs1 : Real.sin 1 < 1 := Real.sin_lt one_pos
  simp only [sampleOffset, realEnv, Int.cast_one, Nat.cast_one, one_mul]
  rw [floor_eq_zero_of _ hc0.le (by linarith), floor_eq_zero_of _ hs0.le hs1]

theorem specOffset_1_1 : specOffset 1 1 = (1, 0) := by
  have hpl := Real.pi_gt_three
  have hpu := Real.pi_lt_d6
  have hx0 : (0 : ℝ) < Real.pi / 180 := by positivity
  have hc1 : Real.cos (Real.pi / 180) ≤ 1 := Real.cos_le_one _
  have hc0 : 1 / 2 ≤ Real.cos (Real.pi / 180) := by
    rw [← Real.cos_pi_div_three]
    apply Real.cos_le_cos_of_nonneg_of_le_pi hx0.le (by linarith) (by linarith)
  have hs0 : 0 < Real.sin (Real.pi / 180) :=
    Real.sin_pos_of_pos_of_lt_pi hx0 (by linarith)
  have hs1 : Real.sin (Real.pi / 180) < Real.pi / 180 := Real.sin_lt hx0
  simp only [specOffset, Int.cast_one, Nat.cast_one, one_mul]
  rw [round_eq, round_eq]
  congr 1
  · rw [Int.floor_eq_iff]; constructor <;> norm_num <;> linarith
  · rw [Int.floor_eq_iff]; constructor <;> norm_num <;> linarith

theorem specOffset_100_90 : specOffset 100 90 = (0, 100) := by
  have h : ((90 : Nat) : ℝ) * Real.pi / 180 = Real.pi / 2 := by push_cast; ring
  simp only [specOffset, h, Real.cos_pi_div_two, Real.sin_pi_div_two]
  norm_num


theorem sampleOffset_degree_100_90 : sampleOffset degreeEnv 100 90 = (0, 100) := by
  have h : ((90 : Nat) : ℝ) * Real.pi / 180 = Real.pi / 2 := by push_cast; ring
  have h0 : truncToInt (((0 : Int) : ℝ)) = 0 := truncToInt_intCast 0
  have h1 : truncToInt (((100 : Int) : ℝ)) = 100 := truncToInt_intCast 100
  simp only [sampleOffset, degreeEnv, h, Real.cos_pi_div_two, Real.sin_pi_div_two, mul_zero,
    mul_one]
  rw [Int.cast_zero] at h0
  rw [h0, h1]

theorem sin_ninety_bounds : 0 < Real.sin 90 ∧ Real.sin 90 < 1 := by
  have hpl := Real.pi_gt_d6
  have hpu := Real.pi_lt_d6
  have hs : Real.sin 90 = Real.sin (90 - 28 * Real.pi) := by
    rw [← Real.sin_sub_nat_mul_two_pi 90 14]
    congr 1
    push_cast
    ring
  rw [hs]
  constructor
  · exact Real.sin_pos_of_pos_of_lt_pi (by linarith) (by linarith)
  · apply lt_of_le_of_ne (Real.sin_le_one _)
    intro h
    have hc := Real.sin_sq_add_cos_sq (90 - 28 * Real.pi)
    rw [h] at hc
    have hc0 : Real.cos (90 - 28 * Real.pi) = 0 := by nlinarith
    have hneg : Real.cos (90 - 28 * Real.pi) < 0 :=
      Real.cos_neg_of_pi_div_two_lt_of_lt (by linarith) (by linarith)
    linarith

theorem sampleOffset_real_100_90_snd : (sampleOffset realEnv 100 90).2 ≤ 99 := by
  have h := sin_ninety_bounds
  have hsin : realEnv.sin 90 = Real.sin 90 := by simp [realEnv]
  have hpos : (0 : ℝ) ≤ ((100 : Int) : ℝ) * realEnv.sin 90 := by
    rw [hsin]; push_cast; linarith
  simp only [sampleOffset, truncToInt, if_pos hpos]
  have : Int.floor (((100 : Int) : ℝ) * realEnv.sin 90) < 100 := by
    rw [Int.floor_lt, hsin]; push_cast; linarith
  omega

theorem mem_ringSamples_real_zero (w h x y radius : Int)
    (hb : inBounds w h (x + radius, y) = true) :
    (x + radius, y) ∈ ringSamples realEnv w h x y radius := by
  simp only [ringSamples, samplesOf, List.mem_filter, List.mem_map, List.mem_range]
  refine ⟨⟨0, by norm_num, ?_⟩, hb⟩
  simp only [candidate, sampleOffset_real_zero, add_zero]

theorem ringSamples_real_head (w h x y radius : Int)
    (hb : inBounds w h (x + radius, y) = true) :
    ∃ rest, ringSamples realEnv w h x y radius = (x + radius, y) :: rest := by
  have hr : List.range 360 = 0 :: List.map Nat.succ (List.range 359) :=
    List.range_succ_eq_map 359
  refine ⟨samplesOf realEnv w h x y radius (List.map Nat.succ (List.range 359)), ?_⟩
  rw [ringSamples, hr, samplesOf_cons]
  have : samplesOf realEnv w h x y radius [0] = [(x + radius, y)] := by
    simp only [samplesOf, List.map_cons, List.map_nil, candidate, sampleOffset_real_zero,
      add_zero]
    rw [List.filter_cons_of_pos hb, List.filter_nil]
  rw [this]
  rfl

theorem smallWorld_blank : smallWorld.surface.allPixels (realEnv.mapRGB 0 0 0) :=
  blankSurface_allPixels 4 3 0

theorem windowWorld_WF (running : Nat → Int) : (windowWorld running).surface.WF :=
  blankSurface_WF 640 480 0

theorem windowWorld_blank (running : Nat → Int) :
    (windowWorld running).surface.allPixels (realEnv.mapRGB 0 0 0) :=
  blankSurface_allPixels 640 480 0

/-! ## Claims -/

section Claims

variable {α : Type} [LinearOrderedField α] [FloorRing α]

/-- C1. On a surface of width `w` and height `h`, for every centre, every
    radius and either mode, `drawCircle` returns without a fault, the points it
    stores to are exactly the candidates inside `[0, w) × [0, h)` (the others
    are skipped), and every store targets `(px, py)` with `0 ≤ px < w`,
    `0 ≤ py < h` at the row-major index `py * w + px`, which is below `w * h`. -/
theorem drawCircle_writes_in_bounds (env : Env α) (wd : World) (hs : wd.surface.WF)
    (x y radius blackOrWhite : Int) :
    ∃ wd' t, drawCircle env wd x y radius blackOrWhite = some wd' ∧
      wd'.trace = wd.trace ++ Event.call radius blackOrWhite :: t ∧
      storeCoords t = ((List.range 360).map (candidate env x y radius)).filter
        (inBounds wd.surface.w wd.surface.h) ∧
      ∀ e ∈ t, ∃ px py v, e = Event.store px py (py * wd.surface.w + px) v ∧
        0 ≤ px ∧ px < wd.surface.w ∧ 0 ≤ py ∧ py < wd.surface.h ∧
        0 ≤ py * wd.surface.w + px ∧ py * wd.surface.w + px < wd.surface.w * wd.surface.h := by
  refine ⟨_, _, drawCircle_eq env wd hs x y radius blackOrWhite, rfl, ?_, ?_⟩
  · rw [storeCoords_storeEvents]; rfl
  · intro e he
    simp only [storeEvents, List.mem_map] at he
    obtain ⟨p, hp, rfl⟩ := he
    have hb := mem_ringSamples env _ _ _ _ _ p hp
    have hi := pixelIndex_bounds wd.surface hs p hb
    simp only [inBounds, decide_eq_true_eq] at hb
    refine ⟨p.1, p.2, _, rfl, hb.1, hb.2.1, hb.2.2.1, hb.2.2.2, hi.1, ?_⟩
    have := hi.2
    rw [hs] at this
    exact this

theorem drawCircle_writes_in_bounds_witness :
    smallWorld.surface.WF ∧
    ∃ wd' t, drawCircle realEnv smallWorld 5 (-1) 3 1 = some wd' ∧
      wd'.trace = Event.call 3 1 :: t ∧
      storeCoords t = ((List.range 360).map (candidate realEnv 5 (-1) 3)).filter (inBounds 4 3) ∧
      ∀ e ∈ t, ∃ px py v, e = Event.store px py (py * 4 + px) v ∧
        0 ≤ px ∧ px < 4 ∧ 0 ≤ py ∧ py < 3 ∧ 0 ≤ py * 4 + px ∧ py * 4 + px < 4 * 3 :=
  ⟨smallWorld_WF, drawCircle_writes_in_bounds realEnv smallWorld smallWorld_WF 5 (-1) 3 1⟩

/-- C2. For every origin `(x, y)`, `drawRipple` returns after exactly 200
    frames (200 calls of `SDL_Delay`), the radii of its Draw-mode calls of
    `drawCircle` are exactly 0, 1, ..., 199 in that order, and no call of
    `drawCircle` it makes has a radius of 200 or more. -/
theorem drawRipple_runs_200_frames (env : Env α) (wd : World) (hs : wd.surface.WF)
    (x y : Int) :
    ∃ wd' t, drawRipple env wd x y = some wd' ∧ wd'.trace = wd.trace ++ t ∧
      wd'.ticks = wd.ticks + 200 ∧ delayCount t = 200 ∧
      ((callLog t).filter (fun c => decide (c.2 = 1))).map Prod.fst =
        (List.range 200).map Int.ofNat ∧
      ∀ c ∈ callLog t, c.1 < 200 := by
  obtain ⟨wd', hr, _, _, _, ht, htr⟩ := drawRipple_run env wd hs x y
  refine ⟨wd', _, hr, htr, ht, ?_, ?_, ?_⟩
  · rw [delayCount_frames, List.length_range]
  · rw [callLog_frames, frameCalls_draws]
  · intro c hc
    rw [callLog_frames] at hc
    simp only [List.mem_flatMap, List.mem_range, frameCalls, List.mem_cons,
      List.mem_singleton, List.not_mem_nil, or_false] at hc
    obtain ⟨i, hi, rfl | rfl⟩ := hc
    · show (i : Int) - 1 < 200
      omega
    · show (i : Int) < 200
      omega

theorem drawRipple_runs_200_frames_witness :
    smallWorld.surface.WF ∧
    ∃ wd' t, drawRipple realEnv smallWorld 2 1 = some wd' ∧ wd'.trace = t ∧
      wd'.ticks = 200 ∧ delayCount t = 200 ∧
      ((callLog t).filter (fun c => decide (c.2 = 1))).map Prod.fst =
        (List.range 200).map Int.ofNat ∧
      ∀ c ∈ callLog t, c.1 < 200 :=
  ⟨smallWorld_WF, drawRipple_runs_200_frames realEnv smallWorld smallWorld_WF 2 1⟩

/-- C3. In the call log of one run of `drawRipple` there are 400 calls, and for
    every frame index `i` below 200 the call at position `2 * i` is the
    Erase-mode call of frame `i` (radius `i - 1`) and the call at position
    `2 * i + 1` is the Draw-mode call of frame `i` (radius `i`): the erase of a
    frame comes strictly before its draw, and both before the calls of the
    next frame. -/
theorem drawRipple_erase_before_draw (env : Env α) (wd : World) (hs : wd.surface.WF)
    (x y : Int) :
    ∃ wd' t, drawRipple env wd x y = some wd' ∧ wd'.trace = wd.trace ++ t ∧
      (callLog t).length = 400 ∧
      ∀ i : Nat, i < 200 →
        (callLog t)[2 * i]? = some ((i : Int) - 1, 0) ∧
        (callLog t)[2 * i + 1]? = some ((i : Int), 1) := by
  obtain ⟨wd', hr, _, _, _, _, htr⟩ := drawRipple_run env wd hs x y
  refine ⟨wd', _, hr, htr, ?_, ?_⟩
  · rw [callLog_frames, frameCalls_length, List.length_range]
  · intro i hi
    rw [callLog_frames]
    have h := frameCalls_getElem? (List.range 200) i
    have hg : (List.range 200)[i]? = some i := by
      rw [List.getElem?_range hi]
    rw [hg] at h
    exact h

theorem drawRipple_erase_before_draw_witness :
    smallWorld.surface.WF ∧
    ∃ wd' t, drawRipple realEnv smallWorld 2 1 = some wd' ∧ wd'.trace = t ∧
      (callLog t).length = 400 ∧
      ∀ i : Nat, i < 200 →
        (callLog t)[2 * i]? = some ((i : Int) - 1, 0) ∧
        (callLog t)[2 * i + 1]? = some ((i : Int), 1) :=
  ⟨smallWorld_WF, drawRipple_erase_before_draw realEnv smallWorld smallWorld_WF 2 1⟩

/-- C4. The Draw-mode channel value `255 - 255 * (radius / 200)`, truncated to
    eight bits, does not increase when the radius grows within 0..199, is 255
    at radius 0 and is at most 1 at radius 199. -/
theorem channelValue_fades (r r' : Int) (h0 : 0 ≤ r) (h1 : r ≤ r') (h2 : r' ≤ 199) :
    channelValue α r' 1 ≤ channelValue α r 1 ∧
    channelValue α 0 1 = 255 ∧
    channelValue α 199 1 ≤ 1 :=
  ⟨channelValue_mono r r' h0 h1 h2, channelValue_zero, le_of_eq channelValue_last⟩

theorem channelValue_fades_witness :
    (0 : Int) ≤ 40 ∧ (40 : Int) ≤ 41 ∧ (41 : Int) ≤ 199 ∧
    channelValue ℚ 41 1 ≤ channelValue ℚ 40 1 ∧
    channelValue ℚ 0 1 = 255 ∧
    channelValue ℚ 199 1 ≤ 1 :=
  ⟨by decide, by decide, by decide,
   channelValue_fades 40 41 (by decide) (by decide) (by decide)⟩

/-- C5, as the code has it. After a whole run of `drawRipple` on a surface that
    is all background colour, every pixel is background-coloured except the
    in-bounds samples of the last ring (radius 199), which keep the faintest
    Draw colour, channel value 1: no erase follows the last draw. -/
theorem drawRipple_leaves_last_ring (env : Env α) (wd : World) (hs : wd.surface.WF)
    (hb : wd.surface.allPixels (env.mapRGB 0 0 0)) (x y : Int) :
    ∃ wd', drawRipple env wd x y = some wd' ∧
      wd'.surface.w = wd.surface.w ∧ wd'.surface.h = wd.surface.h ∧
      ∀ p : Int × Int, inBounds wd.surface.w wd.surface.h p = true →
        wd'.surface.pixels[(pixelIndex wd.surface.w p).toNat]? =
          some (if p ∈ ringSamples env wd.surface.w wd.surface.h x y 199
            then env.mapRGB 1 1 1 else env.mapRGB 0 0 0) := by
  obtain ⟨wd', hr, hsurf⟩ := drawRipple_final_surface env wd hs hb x y
  refine ⟨wd', hr, ?_, ?_, ?_⟩
  · rw [hsurf]; rfl
  · rw [hsurf]; rfl
  · intro p hp
    rw [hsurf]
    exact paint_pixel wd.surface hs _ (fun q hq => mem_ringSamples env _ _ _ _ _ q hq) _ _ hb p hp

theorem drawRipple_leaves_last_ring_witness :
    smallWorld.surface.WF ∧ smallWorld.surface.allPixels (realEnv.mapRGB 0 0 0) ∧
    ∃ wd', drawRipple realEnv smallWorld 2 1 = some wd' ∧
      wd'.surface.w = 4 ∧ wd'.surface.h = 3 ∧
      ∀ p : Int × Int, inBounds 4 3 p = true →
        wd'.surface.pixels[(pixelIndex 4 p).toNat]? =
          some (if p ∈ ringSamples realEnv 4 3 2 1 199
            then realEnv.mapRGB 1 1 1 else realEnv.mapRGB 0 0 0) :=
  ⟨smallWorld_WF, smallWorld_blank,
   drawRipple_leaves_last_ring realEnv smallWorld smallWorld_WF smallWorld_blank 2 1⟩

/-- C6. On a surface that is all background colour, for every centre and every
    radius, `drawCircle` in Draw mode followed by `drawCircle` in Erase mode at
    the same centre and radius both return, the Erase call stores the
    background value `mapRGB 0 0 0` at exactly the points the Draw call stored
    to, and the surface is the all-background surface again. -/
theorem draw_then_erase_restores (env : Env α) (wd : World) (hs : wd.surface.WF)
    (hb : wd.surface.allPixels (env.mapRGB 0 0 0)) (x y radius : Int) :
    ∃ w1 w2 t1 t2, drawCircle env wd x y radius 1 = some w1 ∧
      drawCircle env w1 x y radius 0 = some w2 ∧
      w1.trace = wd.trace ++ Event.call radius 1 :: t1 ∧
      w2.trace = w1.trace ++ Event.call radius 0 :: t2 ∧
      storeCoords t2 = storeCoords t1 ∧
      (∀ e ∈ t2, ∃ px py index, e = Event.store px py index (env.mapRGB 0 0 0)) ∧
      w2.surface = wd.surface ∧
      w2.surface.allPixels (env.mapRGB 0 0 0) := by
  have h1 := drawCircle_eq env wd hs x y radius 1
  have hs1 := circleWorld_WF env wd hs x y radius 1
  have h2 := drawCircle_eq env (circleWorld env wd x y radius 1) hs1 x y radius 0
  have hsurf : (circleWorld env (circleWorld env wd x y radius 1) x y radius 0).surface =
      wd.surface := by
    simp only [circleWorld, colour_erase]
    exact paint_erase wd.surface _ _ hb _
  refine ⟨_, _, _, _, h1, h2, rfl, rfl, ?_, ?_, hsurf, ?_⟩
  · rw [storeCoords_storeEvents, storeCoords_storeEvents]; rfl
  · intro e he
    simp only [storeEvents, List.mem_map] at he
    obtain ⟨p, _, rfl⟩ := he
    exact ⟨p.1, p.2, _, by rw [colour_erase]⟩
  · rw [hsurf]; exact hb

theorem draw_then_erase_restores_witness :
    smallWorld.surface.WF ∧ smallWorld.surface.allPixels (realEnv.mapRGB 0 0 0) ∧
    ∃ w1 w2 t1 t2, drawCircle realEnv smallWorld 2 1 1 1 = some w1 ∧
      drawCircle realEnv w1 2 1 1 0 = some w2 ∧
      w1.trace = Event.call 1 1 :: t1 ∧
      w2.trace = w1.trace ++ Event.call 1 0 :: t2 ∧
      storeCoords t2 = storeCoords t1 ∧
      (∀ e ∈ t2, ∃ px py index, e = Event.store px py index (realEnv.mapRGB 0 0 0)) ∧
      w2.surface = smallWorld.surface ∧
      w2.surface.allPixels (realEnv.mapRGB 0 0 0) :=
  ⟨smallWorld_WF, smallWorld_blank,
   draw_then_erase_restores realEnv smallWorld smallWorld_WF smallWorld_blank 2 1 1⟩

/-- C7, as the code has it. Frame 0 of `drawRipple` calls `drawCircle` in
    Erase mode with radius -1, unguarded; that call stores the background value
    `mapRGB 0 0 0` at its in-bounds samples; then come the Draw-mode call at
    radius 0, whose stores are of `mapRGB 255 255 255`, and the delay.  Every
    call of the later frames has a radius of at least 0. -/
theorem drawRipple_frame_zero (env : Env α) (wd : World) (hs : wd.surface.WF) (x y : Int) :
    ∃ wd' rest, drawRipple env wd x y = some wd' ∧
      wd'.trace = wd.trace ++
        (Event.call (-1) 0 ::
          storeEvents wd.surface.w (ringSamples env wd.surface.w wd.surface.h x y (-1))
            (env.mapRGB 0 0 0) ++
         Event.call 0 1 ::
          storeEvents wd.surface.w (ringSamples env wd.surface.w wd.surface.h x y 0)
            (env.mapRGB 255 255 255) ++
         Event.delay 16 :: rest) ∧
      ∀ c ∈ callLog rest, 0 ≤ c.1 := by
  obtain ⟨wd', hr, _, _, _, _, htr⟩ := drawRipple_run env wd hs x y
  have hrange : List.range 200 = 0 :: List.map Nat.succ (List.range 199) :=
    List.range_succ_eq_map 199
  refine ⟨wd', (List.map Nat.succ (List.range 199)).flatMap
    (frameEvents env wd.surface.w wd.surface.h x y), hr, ?_, ?_⟩
  · rw [htr, hrange, List.flatMap_cons, frameEvents_zero]
    simp only [List.append_assoc, List.cons_append, List.nil_append]
  · intro c hc
    rw [callLog_frames] at hc
    simp only [List.mem_flatMap, List.mem_map, List.mem_range, frameCalls, List.mem_cons,
      List.mem_singleton, List.not_mem_nil, or_false] at hc
    obtain ⟨i, ⟨j, _, rfl⟩, rfl | rfl⟩ := hc
    · show (0 : Int) ≤ ((Nat.succ j : Nat) : Int) - 1
      push_cast; omega
    · show (0 : Int) ≤ ((Nat.succ j : Nat) : Int)
      omega

theorem drawRipple_frame_zero_witness :
    smallWorld.surface.WF ∧
    ∃ wd' rest, drawRipple realEnv smallWorld 2 1 = some wd' ∧
      wd'.trace =
        (Event.call (-1) 0 ::
          storeEvents 4 (ringSamples realEnv 4 3 2 1 (-1)) (realEnv.mapRGB 0 0 0) ++
         Event.call 0 1 ::
          storeEvents 4 (ringSamples realEnv 4 3 2 1 0) (realEnv.mapRGB 255 255 255) ++
         Event.delay 16 :: rest) ∧
      ∀ c ∈ callLog rest, 0 ≤ c.1 :=
  ⟨smallWorld_WF, drawRipple_frame_zero realEnv smallWorld smallWorld_WF 2 1⟩

/-- The candidates of `drawCircle`: for every centre, radius and mode the call
    examines 360 candidates in increasing sample index `k`, the candidate of
    sample `k` being `(x + dx, y + dy)` with `dx` and `dy` the products
    `radius * cos(k)` and `radius * sin(k)` truncated toward zero: each offset is
    no larger in absolute value than the product and differs from it by less
    than 1.  The stores of the call are at exactly the candidates inside the
    surface, in that order. -/
theorem drawCircle_samples_truncated (env : Env α) (wd : World) (hs : wd.surface.WF)
    (x y radius blackOrWhite : Int) :
    ∃ wd' t, drawCircle env wd x y radius blackOrWhite = some wd' ∧
      wd'.trace = wd.trace ++ Event.call radius blackOrWhite :: t ∧
      storeCoords t =
        ((List.range 360).map fun k =>
            (x + truncToInt ((radius : α) * env.cos k),
             y + truncToInt ((radius : α) * env.sin k))).filter
          (inBounds wd.surface.w wd.surface.h) ∧
      ∀ k : Nat,
        |((truncToInt ((radius : α) * env.cos k) : Int) : α)| ≤ |(radius : α) * env.cos k| ∧
        |(radius : α) * env.cos k - ((truncToInt ((radius : α) * env.cos k) : Int) : α)| < 1 ∧
        |((truncToInt ((radius : α) * env.sin k) : Int) : α)| ≤ |(radius : α) * env.sin k| ∧
        |(radius : α) * env.sin k - ((truncToInt ((radius : α) * env.sin k) : Int) : α)| < 1 := by
  refine ⟨_, _, drawCircle_eq env wd hs x y radius blackOrWhite, rfl, ?_, ?_⟩
  · rw [storeCoords_storeEvents]; rfl
  · intro k
    exact ⟨(truncToInt_toward_zero _).1, (truncToInt_toward_zero _).2,
      (truncToInt_toward_zero _).1, (truncToInt_toward_zero _).2⟩

end Claims

/-- C5 fails as stated: on the 640 × 480 black surface a ripple at (320, 240)
    returns with pixel (519, 240), index 154119, holding `mapRGB888 1 1 1`, so
    the surface is not all background. -/
theorem ripple_leaves_pixel_519_240 :
    ∃ wd', drawRipple realEnv (windowWorld fun _ => 1) 320 240 = some wd' ∧
      wd'.surface.pixels[154119]? = some 65793 ∧
      ¬ wd'.surface.allPixels (realEnv.mapRGB 0 0 0) := by
  obtain ⟨wd', hr, hsurf⟩ := drawRipple_final_surface realEnv (windowWorld fun _ => 1)
    (windowWorld_WF _) (windowWorld_blank _) 320 240
  have hin : inBounds 640 480 ((320 : Int) + 199, 240) = true := by decide
  have hmem := mem_ringSamples_real_zero 640 480 320 240 199 hin
  have hpix := paint_pixel (windowWorld fun _ => 1).surface (windowWorld_WF _)
    (ringSamples realEnv 640 480 320 240 199)
    (fun q hq => mem_ringSamples realEnv _ _ _ _ _ q hq) (realEnv.mapRGB 1 1 1)
    (realEnv.mapRGB 0 0 0) (windowWorld_blank _) ((320 : Int) + 199, 240) hin
  rw [if_pos hmem] at hpix
  have hget : wd'.surface.pixels[154119]? = some 65793 := by
    rw [hsurf]
    exact hpix
  refine ⟨wd', hr, hget, ?_⟩
  intro hall
  have := hall 65793 (List.getElem?_mem hget)
  revert this
  decide


/-- C7 fails as stated: a ripple at (320, 240) on the 640 × 480 surface starts
    by calling `drawCircle` with radius -1 in Erase mode, and that call stores
    to pixel (319, 240). -/
theorem ripple_first_call_has_radius_minus_one :
    ∃ wd', drawRipple realEnv (windowWorld fun _ => 1) 320 240 = some wd' ∧
      wd'.trace.take 2 = [Event.call (-1) 0, Event.store 319 240 153919 0] := by
  obtain ⟨wd', hr, _, _, _, _, htr⟩ := drawRipple_run realEnv (windowWorld fun _ => 1)
    (windowWorld_WF _) 320 240
  have hrange : List.range 200 = 0 :: List.map Nat.succ (List.range 199) :=
    List.range_succ_eq_map 199
  have hin : inBounds 640 480 ((320 : Int) + (-1), 240) = true := by decide
  obtain ⟨rest, hring⟩ := ringSamples_real_head 640 480 320 240 (-1) hin
  refine ⟨wd', hr, ?_⟩
  have hw : (windowWorld fun _ => 1).surface.w = 640 := rfl
  have hh : (windowWorld fun _ => 1).surface.h = 480 := rfl
  have ht : (windowWorld fun _ => 1).trace = [] := rfl
  rw [htr, hrange, List.flatMap_cons, frameEvents_zero, hw, hh, ht, hring]
  simp only [storeEvents, List.map_cons, List.nil_append, List.cons_append, List.take_succ_cons,
    List.take_zero]
  rfl

/-- C8 at the failing input: with `is_game_running` equal to 1 during the first
    five frames and cleared from frame 5 on, a ripple at (320, 240) on the
    640 × 480 surface still runs all 200 frames, and its last call of
    `drawCircle` is the Draw-mode call of frame 199. -/
theorem ripple_runs_on_with_flag_cleared :
    ∃ wd', drawRipple realEnv (windowWorld fun t => if t < 5 then 1 else 0) 320 240 = some wd' ∧
      wd'.is_game_running 4 = 1 ∧ wd'.is_game_running 5 = 0 ∧ wd'.ticks = 200 ∧
      (callLog wd'.trace).length = 400 ∧
      (callLog wd'.trace)[399]? = some (199, 1) := by
  obtain ⟨wd', hr, _, _, hflag, ht, htr⟩ := drawRipple_run realEnv
    (windowWorld fun t => if t < 5 then 1 else 0) (windowWorld_WF _) 320 240
  have htrace : (windowWorld fun t => if t < 5 then 1 else 0).trace = [] := rfl
  rw [htrace, List.nil_append] at htr
  refine ⟨wd', hr, ?_, ?_, ?_, ?_, ?_⟩
  · rw [hflag]; rfl
  · rw [hflag]; rfl
  · rw [ht]; rfl
  · rw [htr, callLog_frames, frameCalls_length, List.length_range]
  · rw [htr, callLog_frames]
    have h := (frameCalls_getElem? (List.range 200) 199).2
    rw [List.getElem?_range (by norm_num)] at h
    exact h

/-- C9 at the failing input: on the 640 × 480 surface, `drawCircle` at centre
    (320, 240), radius 0, Draw mode, returns with a trace that starts with the
    call and a store to pixel (320, 240), contains no lock event, and so does
    not keep the locking discipline. -/
theorem drawCircle_stores_without_lock :
    ∃ wd' rest, drawCircle realEnv (windowWorld fun _ => 1) 320 240 0 1 = some wd' ∧
      wd'.trace = Event.call 0 1 :: Event.store 320 240 153920 16777215 :: rest ∧
      Event.lock ∉ wd'.trace ∧
      underLock false wd'.trace = false := by
  have hin : inBounds 640 480 ((320 : Int) + 0, 240) = true := by decide
  obtain ⟨rest, hring⟩ := ringSamples_real_head 640 480 320 240 0 hin
  have hcol : colour realEnv 0 1 = 16777215 := by
    simp only [colour, channelValue_zero]
    rfl
  have htr : (circleWorld realEnv (windowWorld fun _ => 1) 320 240 0 1).trace =
      Event.call 0 1 :: Event.store 320 240 153920 16777215 :: storeEvents 640 rest 16777215 := by
    have hw : (windowWorld fun _ => 1).surface.w = 640 := rfl
    have hh : (windowWorld fun _ => 1).surface.h = 480 := rfl
    have ht : (windowWorld fun _ => 1).trace = [] := rfl
    simp only [circleWorld, hw, hh, ht, hring, hcol, List.nil_append, storeEvents, List.map_cons]
    rfl
  refine ⟨_, storeEvents 640 rest 16777215,
    drawCircle_eq realEnv (windowWorld fun _ => 1) (windowWorld_WF _) 320 240 0 1, htr, ?_, ?_⟩
  · rw [htr]
    simp [storeEvents]
  · rw [htr]
    simp [underLock]

/-- C10 at the failing input: radius 100, sample 90, centre (320, 240).  The
    claim's offset is (0, 100), candidate (320, 340).  The code passes the
    degree counter 90 to `cos` and `sin`, which take radians, so `dx` is at most
    -43 and `dy` at most 99: the candidate has `px ≤ 277` and `py ≤ 339`.  With
    the angle taken in degrees, as the comment of the loop says, the code's own
    conversion to `int` gives the claim's (0, 100). -/
theorem sampleOffset_takes_degrees_as_radians :
    specOffset 100 90 = (0, 100) ∧
    (sampleOffset realEnv 100 90).1 ≤ -43 ∧ (sampleOffset realEnv 100 90).2 ≤ 99 ∧
    sampleOffset realEnv 100 90 ≠ specOffset 100 90 ∧
    (candidate realEnv 320 240 100 90).1 ≤ 277 ∧ (candidate realEnv 320 240 100 90).2 ≤ 339 ∧
    sampleOffset degreeEnv 100 90 = (0, 100) := by
  have h1 := sampleOffset_real_100_90
  have h2 := sampleOffset_real_100_90_snd
  refine ⟨specOffset_100_90, h1, h2, ?_, ?_, ?_, sampleOffset_degree_100_90⟩
  · intro h
    rw [h, specOffset_100_90] at h1
    revert h1
    decide
  · show (320 : Int) + (sampleOffset realEnv 100 90).1 ≤ 277
    omega
  · show (240 : Int) + (sampleOffset realEnv 100 90).2 ≤ 339
    omega

end Ripple
